import Mathlib

/-!
# Verification of the beam-search core (src/beam_search.py)

This file is a shallow embedding of the class `Beam` from `src/beam_search.py`
together with theorems settling the specification claims about it.

Embedding conventions:

* Tensors become lists: a 1-D float tensor is a `List score`, the 2-D
  probability table `word_lk` is a `List (List ℤ)` (row = slot, column =
  vocabulary index), and the histories `prevKs` / `nextYs` are lists of
  per-step records.
* Float scores are idealized as exact numbers.  The algorithm only ever
  adds scores, multiplies them by the mask values `1` / `-inf`, and compares
  them, so any linearly ordered integral domain is faithful; we use
  `WithBot ℤ` (with `⊥` playing the role of `-inf`) so that every statement
  is decidable and witnesses can be checked by evaluation.  The IEEE corner
  `(-inf) * 0 = NaN` is idealized as `⊥` (see `mbMul`).
* `torch.topk(k, largest=True, sorted=True)` is modelled as the
  deterministic stable selection: the `k` largest values in descending
  order, ties broken by the lower flattened index (`pickMax` / `topkPairs`).
* Python exceptions (tensor allocation failures, index errors, `topk` with
  `k` larger than the number of elements) become `Except.error`.
* The `processor` object is only consulted for the vocabulary indices of
  PAD, START and END (`processor.w2i[processor.PAD]` etc.), so it is
  embedded as a record of those three indices.  The `device` argument and
  the never-used attention buffer `attn` / parameter `attn_out` have no
  algorithmic content and are omitted.
-/

namespace BeamSearch

/-- Extended score domain: `⊥` models the float `-inf` used by the mask. -/
abbrev Qb := WithBot ℤ

/-- The slice of the external vocabulary processor that `Beam` reads:
the integer indices of the PAD, START and END symbols
(`processor.w2i[processor.PAD]`, ... in the source). -/
structure Processor where
  pad : ℕ
  start : ℕ
  endTok : ℕ
deriving DecidableEq, Repr

/-- State of `Beam` (src/beam_search.py, class `Beam`):
`size`, `done`, `scores`, `mask` (`1` = active, `⊥` = finished),
backpointer records `prevKs` and token records `nextYs`. -/
structure Beam where
  size : ℕ
  done : Bool
  processor : Processor
  scores : List Qb
  mask : List Qb
  prevKs : List (List ℕ)
  nextYs : List (List ℕ)
deriving DecidableEq, Repr

/-- Embeds `Beam.__init__` (src/beam_search.py lines 22-43).
The source performs no explicit size validation, but construction fails
for `size < 1` anyway: `torch.FloatTensor(size)` raises for negative
`size`, and for `size = 0` the assignment `self.nextYs[0][0] = START`
raises an index error.  For `size ≥ 1` the fields are: `scores` all zero,
`mask` all `1` (active), `prevKs` empty, and one token record holding PAD
everywhere except START at slot 0. -/
def Beam.init (size : ℤ) (proc : Processor) : Except String Beam :=
  if size < 0 then .error "cannot allocate a tensor with a negative dimension"
  else if size = 0 then .error "index 0 is out of bounds for dimension of size 0"
  else .ok
    { size := size.toNat
      done := false
      processor := proc
      scores := List.replicate size.toNat 0
      mask := List.replicate size.toNat 1
      prevKs := []
      nextYs := [(List.replicate size.toNat proc.pad).set 0 proc.start] }

/-- `word_lk.size(1)`: the column count of the probability table,
read off from its first row. -/
def numWords (w : List (List ℤ)) : ℕ := (w.headD []).length

/-- Mask multiplication `self.mask[i] * word_lk[i][j]` on one entry.
`⊥ * q = ⊥` (for an active slot the mask value is `1`, so the entry is
unchanged).  In IEEE arithmetic `-inf * q = -inf` for `q > 0`; the model
extends this to `q = 0`, where IEEE would give NaN with library-dependent
sorting behaviour, and the spec precondition is `q ≥ 0`. -/
def mbMul (m : Qb) (q : ℤ) : Qb := m.map (· * q)

/-- One row of the two masking steps of `Beam.advance`
(src/beam_search.py lines 63 and 66): multiply the row by its mask value,
then, for a finished row (`mask < 0`), force the PAD column to `0`. -/
def maskRow (pad : ℕ) (m : Qb) (row : List ℤ) : List Qb :=
  if m < 0 then (row.map (mbMul m)).set pad 0 else row.map (mbMul m)

/-- The masked probability table (`word_lk` after lines 63 and 66). -/
def maskedTable (b : Beam) (w : List (List ℤ)) : List (List Qb) :=
  List.zipWith (maskRow b.processor.pad) b.mask w

/-- The flattened candidate score table `flat_beam_lk`
(src/beam_search.py lines 69-74): row 0 of the masked table alone on the
first step (`prevKs` empty), otherwise each masked row plus its slot's
accumulated score, flattened row-major. -/
def beamCandidates (b : Beam) (w : List (List ℤ)) : List Qb :=
  let mt := maskedTable b w
  if b.prevKs.length > 0 then
    (List.zipWith (fun row s => row.map (· + s)) mt b.scores).flatten
  else mt.headD []

/-- Select the (index, value) pair with the largest value, earliest index
winning ties, and return it together with the remaining pairs (in their
original order).  Helper for the `torch.topk` model. -/
def pickMax : List (ℕ × Qb) → Option ((ℕ × Qb) × List (ℕ × Qb))
  | [] => none
  | p :: rest =>
    match pickMax rest with
    | none => some (p, [])
    | some (q, qrem) => if p.2 < q.2 then some (q, p :: qrem) else some (p, rest)

/-- `torch.topk(k, largest=True, sorted=True)` over an enumerated list:
the `k` largest (index, value) pairs in descending value order, ties
broken by the lower index.  `none` when `k` exceeds the number of
elements (torch raises "selected index k out of range"). -/
def topkPairs : ℕ → List (ℕ × Qb) → Option (List (ℕ × Qb))
  | 0, _ => some []
  | k + 1, l =>
    match pickMax l with
    | none => none
    | some (p, rem) => (topkPairs k rem).map (p :: ·)

/-- The top-k selection made by `Beam.advance`
(src/beam_search.py line 76). -/
def Beam.advanceSel (b : Beam) (w : List (List ℤ)) : Option (List (ℕ × Qb)) :=
  topkPairs b.size (beamCandidates b w).enum

/-- The new backpointer record `prev_k = best_scores_id / num_words`
(src/beam_search.py line 81), one entry per selected candidate. -/
def selPrev (nw : ℕ) (sel : List (ℕ × Qb)) : List ℕ := sel.map fun p => p.1 / nw

/-- The new token record `best_scores_id - prev_k * num_words`
(src/beam_search.py line 83), one entry per selected candidate. -/
def selToks (nw : ℕ) (sel : List (ℕ × Qb)) : List ℕ :=
  sel.map fun p => p.1 - p.1 / nw * nw

/-- The mask update (src/beam_search.py lines 87-91): if any newly
emitted token is END or PAD, reset the mask to all-active and re-mark as
finished exactly the slots whose new token is END or PAD; otherwise the
mask is left unchanged. -/
def newMask (pr : Processor) (old : List Qb) (toks : List ℕ) : List Qb :=
  if toks.any fun t => decide (t = pr.endTok ∨ t = pr.pad) then
    toks.map fun t => if t = pr.endTok ∨ t = pr.pad then (⊥ : Qb) else 1
  else old

/-- Embeds `Beam.advance` (src/beam_search.py lines 53-101):
mask the table, build and flatten the candidate scores, take the top
`size`, decode each selected flat index into a backpointer and a token,
append the new records, recompute the finished mask when any new token is
END or PAD, and update / return the done flag (done when no mask entry
equals `1`).
The error cases are the torch failures: the masked PAD-column assignment
with an out-of-range PAD index (possible only when a finished row exists),
and `topk` with `k` larger than the number of candidates. -/
def Beam.advance (b : Beam) (w : List (List ℤ)) : Except String (Beam × Bool) :=
  if (b.mask.any fun m => decide (m < 0)) && decide (numWords w ≤ b.processor.pad) then
    .error "index out of range in masked PAD assignment"
  else
    match b.advanceSel w with
    | none => .error "selected index k out of range"
    | some sel =>
      let toks := selToks (numWords w) sel
      let mask2 := newMask b.processor b.mask toks
      let done2 := if mask2.any fun m => decide (m = 1) then b.done else true
      .ok ({ b with
              scores := sel.map Prod.snd
              mask := mask2
              prevKs := b.prevKs ++ [selPrev (numWords w) sel]
              nextYs := b.nextYs ++ [toks]
              done := done2 }, done2)

/-- `Beam.get_current_state`: the most recent token record. -/
def Beam.get_current_state (b : Beam) : List ℕ := b.nextYs.getLastD []

/-- `Beam.get_current_origin`: the most recent backpointer record. -/
def Beam.get_current_origin (b : Beam) : List ℕ := b.prevKs.getLastD []

/-- Python / torch 1-D indexing `l[k]` for an integer `k`: non-negative
indices are direct, negative indices in `[-len, -1]` wrap around, and
anything else is an index error (`none`). -/
def tIndex (l : List ℕ) (k : ℤ) : Option ℕ :=
  if 0 ≤ k then l.get? k.toNat
  else if 0 ≤ k + l.length then l.get? (k + l.length).toNat
  else none

/-- The backward walk of `Beam.get_hyp` (src/beam_search.py lines 120-122)
over the reversed list of `(prevKs[j], nextYs[j+1])` pairs: at each step
read the token `nextYs[j+1][k]`, then follow `k = prevKs[j][k]`. -/
def hypWalk : List (List ℕ × List ℕ) → ℤ → Except String (List ℕ)
  | [], _ => .ok []
  | (pk, ny) :: rest, k =>
    match tIndex ny k, tIndex pk k with
    | some t, some k2 => (hypWalk rest (k2 : ℤ)).map (t :: ·)
    | _, _ => .error "index out of range"

/-- Embeds `Beam.get_hyp` (src/beam_search.py lines 112-124): walk the
backpointers from the last step to the first starting at slot `k`,
collect the tokens, and reverse the collected list.  The source performs
no bounds check on `k`; failures are ordinary index errors inside the
walk (and Python tensor indexing lets negative `k ∈ [-size, -1]` wrap). -/
def Beam.get_hyp (b : Beam) (k : ℤ) : Except String (List ℕ) :=
  (hypWalk ((b.prevKs.zip b.nextYs.tail).reverse) k).map List.reverse

/-- Modelled from the spec words for `reconstruct` (spec section 4.1):
"walks `backpointers` from the last step to the first, starting at
`slotIndex`, at each step reading `tokenHistory[step+1][currentSlot]` then
following `currentSlot = backpointers[step][currentSlot]`" — the same walk
as total function over in-range indices. -/
def specWalk : List (List ℕ × List ℕ) → ℕ → List ℕ
  | [], _ => []
  | (pk, ny) :: rest, k => ny.getD k 0 :: specWalk rest (pk.getD k 0)

/-- Modelled from the spec words for `reconstruct`: the collected tokens
of the backward walk, reversed into first-to-last order. -/
def specReconstruct (b : Beam) (k : ℕ) : List ℕ :=
  (specWalk ((b.prevKs.zip b.nextYs.tail).reverse) k).reverse

/-- Well-formedness of a beam state: the field lengths the source keeps
in lock-step (scores, mask and every record have length `size`;
`nextYs` is one longer than `prevKs`) and backpointer entries are valid
slot indices. -/
def Beam.WF (b : Beam) : Prop :=
  b.scores.length = b.size ∧ b.mask.length = b.size ∧
  b.nextYs.length = b.prevKs.length + 1 ∧
  (∀ r ∈ b.prevKs, r.length = b.size ∧ ∀ x ∈ r, x < b.size) ∧
  (∀ r ∈ b.nextYs, r.length = b.size)

instance (b : Beam) : Decidable b.WF := by unfold Beam.WF; infer_instance

/-! ## Auxiliary list lemmas -/

theorem get?_eq_some_getD {α : Type _} (l : List α) (n : ℕ) (d : α) (h : n < l.length) :
    l.get? n = some (l.getD n d) := by
  rw [List.get?_eq_getElem?, List.getElem?_eq_getElem h, List.getD_eq_getElem l d h]

theorem mem_enum_spec {α : Type _} {l : List α} {p : ℕ × α} (h : p ∈ l.enum) (d : α) :
    p.1 < l.length ∧ p.2 = l.getD p.1 d := by
  obtain ⟨i, x⟩ := p
  obtain ⟨-, h2, h3⟩ := List.mem_enumFrom h
  rw [Nat.zero_add] at h2
  refine ⟨h2, ?_⟩
  rw [List.getD_eq_getElem l d h2]
  simpa using h3

theorem pairwise_fst_lt_enum {α : Type _} (l : List α) :
    l.enum.Pairwise fun a b => a.1 < b.1 := by
  have h : List.Pairwise (· < ·) (l.enum.map Prod.fst) := by
    rw [List.enum_map_fst]; exact List.pairwise_lt_range _
  exact List.pairwise_map.mp h

theorem flatten_getD {α : Type _} (rows : List (List α)) (v : ℕ)
    (hrows : ∀ r ∈ rows, r.length = v) (i j : ℕ) (hi : i < rows.length) (hj : j < v) (d : α) :
    rows.flatten.getD (i * v + j) d = (rows.getD i []).getD j d := by
  induction rows generalizing i with
  | nil => simp at hi
  | cons r rest ih =>
    have hr : r.length = v := hrows r (by simp)
    cases i with
    | zero =>
      simp only [List.flatten_cons, Nat.zero_mul, Nat.zero_add]
      rw [List.getD_append _ _ _ _ (by omega)]
      rfl
    | succ i =>
      simp only [List.flatten_cons]
      rw [List.getD_append_right _ _ _ _ (by rw [hr]; calc
        v ≤ (i + 1) * v := Nat.le_mul_of_pos_left v (Nat.succ_pos i)
        _ ≤ (i + 1) * v + j := Nat.le_add_right _ _)]
      have harith : (i + 1) * v + j - r.length = i * v + j := by
        rw [hr]; rw [Nat.succ_mul]; omega
      rw [harith, ih (fun r hr => hrows r (by simp [hr])) i (by simpa using hi)]
      rfl

theorem length_le_countP_flatten {α : Type _} (rows : List (List α)) (f : α → Bool)
    (h : ∀ r ∈ rows, 1 ≤ r.countP f) : rows.length ≤ rows.flatten.countP f := by
  induction rows with
  | nil => simp
  | cons r rest ih =>
    simp only [List.flatten_cons, List.countP_append, List.length_cons]
    have h1 := h r (by simp)
    have h2 := ih fun r hr => h r (by simp [hr])
    omega

/-! ## Properties of the stable top-k selection -/

theorem pickMax_eq_none {l : List (ℕ × Qb)} : pickMax l = none ↔ l = [] := by
  constructor
  · intro h
    cases l with
    | nil => rfl
    | cons a rest =>
      rw [pickMax] at h
      cases hr : pickMax rest with
      | none => rw [hr] at h; simp at h
      | some q => rw [hr] at h; obtain ⟨q, qrem⟩ := q; dsimp at h; split at h <;> simp at h
  · rintro rfl; rfl

theorem pickMax_spec {l : List (ℕ × Qb)} {p : ℕ × Qb} {rem : List (ℕ × Qb)}
    (h : pickMax l = some (p, rem)) :
    ∃ l₁ l₂, l = l₁ ++ p :: l₂ ∧ rem = l₁ ++ l₂ ∧
      (∀ x ∈ l₁, x.2 < p.2) ∧ (∀ x ∈ l₂, x.2 ≤ p.2) := by
  induction l generalizing p rem with
  | nil => simp [pickMax] at h
  | cons a rest ih =>
    rw [pickMax] at h
    cases hr : pickMax rest with
    | none =>
      rw [hr] at h
      have hnil : rest = [] := pickMax_eq_none.mp hr
      subst hnil
      simp only [Option.some.injEq, Prod.mk.injEq] at h
      obtain ⟨rfl, rfl⟩ := h
      exact ⟨[], [], rfl, rfl, by simp, by simp⟩
    | some qr =>
      obtain ⟨q, qrem⟩ := qr
      rw [hr] at h
      obtain ⟨r₁, r₂, hrest, hqrem, h1, h2⟩ := ih hr
      dsimp at h
      split at h
      case isTrue hlt =>
        simp only [Option.some.injEq, Prod.mk.injEq] at h
        obtain ⟨hqp, hrem⟩ := h
        rw [← hqp, ← hrem]
        refine ⟨a :: r₁, r₂, by rw [hrest]; rfl, by rw [hqrem]; rfl, ?_, h2⟩
        intro x hx
        rcases List.mem_cons.mp hx with rfl | hx
        · exact hlt
        · exact h1 x hx
      case isFalse hge =>
        simp only [Option.some.injEq, Prod.mk.injEq] at h
        obtain ⟨hap, hrem⟩ := h
        rw [← hap, ← hrem]
        refine ⟨[], rest, rfl, rfl, by simp, ?_⟩
        intro x hx
        rw [hrest] at hx
        have hq : q.2 ≤ a.2 := le_of_not_lt hge
        rcases List.mem_append.mp hx with hx | hx
        · exact le_trans (le_of_lt (h1 x hx)) hq
        · rcases List.mem_cons.mp hx with rfl | hx
          · exact hq
          · exact le_trans (h2 x hx) hq

theorem pickMax_mem {l : List (ℕ × Qb)} {p : ℕ × Qb} {rem : List (ℕ × Qb)}
    (h : pickMax l = some (p, rem)) : p ∈ l := by
  obtain ⟨l₁, l₂, rfl, -, -, -⟩ := pickMax_spec h
  simp

theorem pickMax_le {l : List (ℕ × Qb)} {p : ℕ × Qb} {rem : List (ℕ × Qb)}
    (h : pickMax l = some (p, rem)) : ∀ q ∈ l, q.2 ≤ p.2 := by
  obtain ⟨l₁, l₂, rfl, -, h1, h2⟩ := pickMax_spec h
  intro q hq
  rcases List.mem_append.mp hq with hq | hq
  · exact le_of_lt (h1 q hq)
  · rcases List.mem_cons.mp hq with rfl | hq
    · exact le_refl _
    · exact h2 q hq

theorem pickMax_rem_sublist {l : List (ℕ × Qb)} {p : ℕ × Qb} {rem : List (ℕ × Qb)}
    (h : pickMax l = some (p, rem)) : rem.Sublist l := by
  obtain ⟨l₁, l₂, rfl, rfl, -, -⟩ := pickMax_spec h
  exact List.Sublist.append_left (List.sublist_cons_self p l₂) l₁

theorem pickMax_perm {l : List (ℕ × Qb)} {p : ℕ × Qb} {rem : List (ℕ × Qb)}
    (h : pickMax l = some (p, rem)) : l.Perm (p :: rem) := by
  obtain ⟨l₁, l₂, rfl, rfl, -, -⟩ := pickMax_spec h
  exact List.perm_middle

theorem pickMax_rem_length {l : List (ℕ × Qb)} {p : ℕ × Qb} {rem : List (ℕ × Qb)}
    (h : pickMax l = some (p, rem)) : rem.length + 1 = l.length :=
  ((pickMax_perm h).length_eq).symm

theorem topkPairs_isSome_iff (k : ℕ) (l : List (ℕ × Qb)) :
    (topkPairs k l).isSome ↔ k ≤ l.length := by
  induction k generalizing l with
  | zero => simp [topkPairs]
  | succ k ih =>
    rw [topkPairs]
    cases hr : pickMax l with
    | none =>
      have : l = [] := pickMax_eq_none.mp hr
      subst this
      simp
    | some pr =>
      obtain ⟨p, rem⟩ := pr
      have hlen := pickMax_rem_length hr
      dsimp
      have hmap : (Option.map (fun x => p :: x) (topkPairs k rem)).isSome
          = (topkPairs k rem).isSome := by
        cases topkPairs k rem <;> rfl
      rw [hmap, ih rem]
      omega

theorem topkPairs_spec {k : ℕ} {l sel : List (ℕ × Qb)}
    (hnd : l.Pairwise fun a b => a.1 < b.1)
    (h : topkPairs k l = some sel) :
    sel.length = k ∧ sel.Pairwise (fun a b => b.2 ≤ a.2) ∧
      (∀ p ∈ sel, p ∈ l) ∧
      ∃ rem, l.Perm (sel ++ rem) ∧
        ∀ p ∈ sel, ∀ q ∈ rem, q.2 ≤ p.2 ∧ (q.2 = p.2 → p.1 < q.1) := by
  induction k generalizing l sel with
  | zero =>
    rw [topkPairs] at h
    simp only [Option.some.injEq] at h
    subst h
    exact ⟨rfl, List.Pairwise.nil, by simp, l, by simp, by simp⟩
  | succ k ih =>
    rw [topkPairs] at h
    cases hr : pickMax l with
    | none => rw [hr] at h; simp at h
    | some pr =>
      obtain ⟨p, rem₀⟩ := pr
      rw [hr] at h
      dsimp at h
      rw [Option.map_eq_some'] at h
      obtain ⟨sel', hsel', rfl⟩ := h
      have hsub := pickMax_rem_sublist hr
      have hnd₀ : rem₀.Pairwise fun a b => a.1 < b.1 := hnd.sublist hsub
      obtain ⟨hlen, hsort, hmem, rem, hperm, hdom⟩ := ih hnd₀ hsel'
      obtain ⟨l₁, l₂, hdecomp, hrem₀, hstrict, hle⟩ := pickMax_spec hr
      have hle' : ∀ q ∈ l, q.2 ≤ p.2 := pickMax_le hr
      have hmem₀ : ∀ x ∈ rem₀, x ∈ l := fun x hx => hsub.mem hx
      refine ⟨by simp [hlen], ?_, ?_, rem, ?_, ?_⟩
      · rw [List.pairwise_cons]
        refine ⟨fun x hx => hle' x (hmem₀ x (hmem x hx)), hsort⟩
      · intro q hq
        rcases List.mem_cons.mp hq with rfl | hq
        · exact pickMax_mem hr
        · exact hmem₀ q (hmem q hq)
      · exact (pickMax_perm hr).trans (hperm.cons p)
      · intro p' hp' q hq
        rcases List.mem_cons.mp hp' with rfl | hp'
        · have hqrem₀ : q ∈ rem₀ := (hperm.mem_iff.mpr (by simp [hq]))
          refine ⟨hle' q (hmem₀ q hqrem₀), ?_⟩
          intro htie
          rw [hrem₀] at hqrem₀
          rcases List.mem_append.mp hqrem₀ with hql | hql
          · exact absurd htie (ne_of_lt (hstrict q hql))
          · rw [hdecomp] at hnd
            have := (List.pairwise_append.mp hnd).2.1
            exact (List.pairwise_cons.mp this).1 q hql
        · exact hdom p' hp' q hq

theorem topkPairs_nobot {k : ℕ} {l sel : List (ℕ × Qb)}
    (h : topkPairs k l = some sel)
    (hc : k ≤ l.countP fun p => decide (p.2 ≠ ⊥)) :
    ∀ p ∈ sel, p.2 ≠ ⊥ := by
  induction k generalizing l sel with
  | zero => rw [topkPairs] at h; simp only [Option.some.injEq] at h; subst h; simp
  | succ k ih =>
    rw [topkPairs] at h
    cases hr : pickMax l with
    | none => rw [hr] at h; simp at h
    | some pr =>
      obtain ⟨p, rem₀⟩ := pr
      rw [hr] at h
      dsimp at h
      rw [Option.map_eq_some'] at h
      obtain ⟨sel', hsel', rfl⟩ := h
      have hpos : 0 < l.countP fun p => decide (p.2 ≠ ⊥) := lt_of_lt_of_le (Nat.succ_pos k) hc
      obtain ⟨x, hxl, hx⟩ := List.countP_pos_iff.mp hpos
      have hxne : x.2 ≠ ⊥ := of_decide_eq_true hx
      have hpne : p.2 ≠ ⊥ := by
        intro hbot
        have := pickMax_le hr x hxl
        rw [hbot] at this
        exact hxne (le_bot_iff.mp this)
      have hcnt : k ≤ rem₀.countP fun p => decide (p.2 ≠ ⊥) := by
        obtain ⟨l₁, l₂, hdecomp, hrem₀, -, -⟩ := pickMax_spec hr
        rw [hdecomp] at hc
        rw [hrem₀]
        simp only [List.countP_append, List.countP_cons] at hc ⊢
        rw [if_pos (decide_eq_true hpne)] at hc
        omega
      intro q hq
      rcases List.mem_cons.mp hq with rfl | hq
      · exact hpne
      · exact ih hsel' hcnt q hq

/-! ## Inversion of a successful advance -/

/-- A successful `advance` call decomposes into: a successful top-k
selection, the record appends, the mask update and the done update. -/
theorem advance_ok {b : Beam} {w : List (List ℤ)} {b' : Beam} {d : Bool}
    (h : b.advance w = .ok (b', d)) :
    ∃ sel, b.advanceSel w = some sel ∧
      b' = { b with
              scores := sel.map Prod.snd
              mask := newMask b.processor b.mask (selToks (numWords w) sel)
              prevKs := b.prevKs ++ [selPrev (numWords w) sel]
              nextYs := b.nextYs ++ [selToks (numWords w) sel]
              done := d } ∧
      d = (if (newMask b.processor b.mask (selToks (numWords w) sel)).any
              fun m => decide (m = 1) then b.done else true) := by
  unfold Beam.advance at h
  split at h
  · exact absurd h (by simp)
  · cases hsel : b.advanceSel w with
    | none => rw [hsel] at h; exact absurd h (by simp)
    | some sel =>
      rw [hsel] at h
      dsimp only at h
      simp only [Except.ok.injEq, Prod.mk.injEq] at h
      obtain ⟨hb, hd⟩ := h
      subst hd
      exact ⟨sel, rfl, hb.symm, rfl⟩

/-! ## Concrete sample states used by the witnesses

Vocabulary layout: PAD = 0, START = 1, END = 2, vocabulary size 4.
`bFresh` is the beam right after construction with size 2, `bStep1` the
beam after one `advance` on the table `wStep1` (the single-step scenario
of spec section 8). -/

def P0 : Processor := ⟨0, 1, 2⟩

def bFresh : Beam :=
  { size := 2, done := false, processor := P0, scores := [0, 0], mask := [1, 1],
    prevKs := [], nextYs := [[1, 0]] }

def wStep1 : List (List ℤ) := [[1, 0, 1, 8], [1, 0, 1, 8]]

def bStep1 : Beam :=
  { size := 2, done := false, processor := P0, scores := [8, 1], mask := [1, ⊥],
    prevKs := [[0, 0]], nextYs := [[1, 0], [3, 0]] }

theorem bFresh_eq_init : Beam.init 2 P0 = .ok bFresh := rfl

theorem bStep1_eq_advance : bFresh.advance wStep1 = .ok (bStep1, false) := rfl

/-! ## The claims -/

/-- C2: for every beam, `len(tokenHistory) = len(backpointers) + 1` holds
immediately after construction, each successful `advance` appends exactly
one record to `prevKs` and exactly one record to `nextYs`, and hence the
length invariant is preserved by every `advance`. -/
theorem C2_length_invariant :
    (∀ (size : ℤ) (proc : Processor) (b : Beam),
        Beam.init size proc = .ok b → b.nextYs.length = b.prevKs.length + 1) ∧
    (∀ (b : Beam) (w : List (List ℤ)) (b' : Beam) (d : Bool),
        b.advance w = .ok (b', d) →
          b'.prevKs.length = b.prevKs.length + 1 ∧
          b'.nextYs.length = b.nextYs.length + 1 ∧
          (b.nextYs.length = b.prevKs.length + 1 →
            b'.nextYs.length = b'.prevKs.length + 1)) := by
  constructor
  · intro size proc b h
    unfold Beam.init at h
    split at h
    · exact absurd h (by simp)
    · split at h
      · exact absurd h (by simp)
      · simp only [Except.ok.injEq] at h
        subst h
        simp
  · intro b w b' d h
    obtain ⟨sel, -, hb, -⟩ := advance_ok h
    subst hb
    refine ⟨by simp, by simp, fun hinv => by simp [hinv]⟩

/-- Witness for C2 at the concrete sample: the fresh beam satisfies the
invariant and the first advance grows both histories by one. -/
theorem C2_length_invariant_witness :
    bFresh.nextYs.length = bFresh.prevKs.length + 1 ∧
    (bStep1.prevKs.length = bFresh.prevKs.length + 1 ∧
      bStep1.nextYs.length = bFresh.nextYs.length + 1 ∧
      (bFresh.nextYs.length = bFresh.prevKs.length + 1 →
        bStep1.nextYs.length = bStep1.prevKs.length + 1)) :=
  ⟨C2_length_invariant.1 2 P0 bFresh bFresh_eq_init,
   C2_length_invariant.2 bFresh wStep1 bStep1 false bStep1_eq_advance⟩

/-- C8: construction fails (the error surfaces to the caller) for every
`size < 1`, and succeeds for every `size ≥ 1` with all-zero scores, all
slots active, no backpointers, and a single token record holding START at
slot 0 and PAD at every other slot. -/
theorem C8_construct (size : ℤ) (proc : Processor) :
    (size < 1 → ∃ e, Beam.init size proc = .error e) ∧
    (1 ≤ size → ∃ b, Beam.init size proc = .ok b ∧
      b.size = size.toNat ∧ b.done = false ∧
      b.scores = List.replicate size.toNat 0 ∧
      b.mask = List.replicate size.toNat 1 ∧
      b.prevKs = [] ∧
      b.nextYs = [(List.replicate size.toNat proc.pad).set 0 proc.start] ∧
      ∀ r ∈ b.nextYs, r.getD 0 0 = proc.start ∧
        ∀ i, 0 < i → i < size.toNat → r.getD i 0 = proc.pad) := by
  constructor
  · intro hlt
    unfold Beam.init
    rcases lt_or_ge size 0 with h | h
    · rw [if_pos h]; exact ⟨_, rfl⟩
    · have h0 : size = 0 := by omega
      rw [if_neg (by omega), if_pos h0]
      exact ⟨_, rfl⟩
  · intro hge
    have hpos : 0 < size.toNat := by omega
    unfold Beam.init
    rw [if_neg (by omega), if_neg (by omega)]
    refine ⟨_, rfl, rfl, rfl, rfl, rfl, rfl, rfl, ?_⟩
    intro r hr
    rcases List.mem_cons.mp hr with rfl | hr
    · constructor
      · have hlen : 0 < ((List.replicate size.toNat proc.pad).set 0 proc.start).length := by
          simpa using hpos
        rw [List.getD_eq_getElem _ _ hlen]
        rw [List.getElem_set]
        simp
      · intro i h0i hi
        have hlen : i < ((List.replicate size.toNat proc.pad).set 0 proc.start).length := by
          simpa using hi
        rw [List.getD_eq_getElem _ _ hlen]
        rw [List.getElem_set_ne (by omega) hlen]
        exact List.getElem_replicate _ _
    · simp at hr

/-- Inversion of a successful construction: the size was at least 1 and
the fields are as written in the source. -/
theorem init_ok {size : ℤ} {proc : Processor} {b : Beam}
    (h : Beam.init size proc = .ok b) :
    1 ≤ size ∧
    b = { size := size.toNat, done := false, processor := proc,
          scores := List.replicate size.toNat 0,
          mask := List.replicate size.toNat 1,
          prevKs := [],
          nextYs := [(List.replicate size.toNat proc.pad).set 0 proc.start] } := by
  unfold Beam.init at h
  split at h
  · exact absurd h (by simp)
  case isFalse h1 =>
    split at h
    · exact absurd h (by simp)
    case isFalse h2 =>
      simp only [Except.ok.injEq] at h
      exact ⟨by omega, h.symm⟩

theorem mbMul_one (q : ℤ) : mbMul 1 q = (q : Qb) := by
  unfold mbMul
  have h1 : (1 : Qb) = ((1 : ℤ) : Qb) := rfl
  rw [h1, WithBot.map_coe, one_mul]

theorem mbMul_bot (q : ℤ) : mbMul ⊥ q = ⊥ := rfl

theorem maskRow_length (pad : ℕ) (m : Qb) (row : List ℤ) :
    (maskRow pad m row).length = row.length := by
  unfold maskRow
  split <;> simp

/-- An active row (mask value 1) is left unchanged by the masking step. -/
theorem maskRow_one (pad : ℕ) (row : List ℤ) :
    maskRow pad 1 row = row.map (fun (q : ℤ) => (q : Qb)) := by
  unfold maskRow
  rw [if_neg (by decide)]
  exact List.map_congr_left fun q _ => mbMul_one q

/-- A finished row (mask value `⊥ = -inf`) becomes all `⊥` except the PAD
column which is forced to `0`. -/
theorem maskRow_bot (pad : ℕ) (row : List ℤ) :
    maskRow pad (⊥ : Qb) row = (List.replicate row.length (⊥ : Qb)).set pad 0 := by
  unfold maskRow
  rw [if_pos (by decide)]
  have h1 : row.map (mbMul ⊥) = row.map (fun _ => (⊥ : Qb)) :=
    List.map_congr_left fun q _ => rfl
  rw [h1, List.map_const']

/-- On a fresh beam (no backpointers, all-active mask) the candidate
table is row 0 of the probability table, unchanged by the masking. -/
theorem beamCandidates_first {b : Beam} {w : List (List ℤ)}
    (hprev : b.prevKs = []) (hmask : b.mask = List.replicate b.size 1)
    (hsz : 0 < b.size) :
    beamCandidates b w = (w.headD []).map (fun (q : ℤ) => (q : Qb)) := by
  unfold beamCandidates
  rw [hprev]
  simp only [List.length_nil, gt_iff_lt, lt_irrefl, if_false]
  unfold maskedTable
  rw [hmask]
  cases w with
  | nil => simp
  | cons r rest =>
    obtain ⟨n, hn⟩ : ∃ n, b.size = n + 1 := ⟨b.size - 1, by omega⟩
    rw [hn, List.replicate_succ, List.zipWith_cons_cons]
    simp only [List.headD_cons]
    exact maskRow_one _ _

/-- Witness for C8 at `size = -3` (failure) and `size = 2` (success). -/
theorem C8_construct_witness :
    (∃ e, Beam.init (-3) P0 = .error e) ∧
    (∃ b, Beam.init 2 P0 = .ok b ∧
      b.size = (2 : ℤ).toNat ∧ b.done = false ∧
      b.scores = List.replicate (2 : ℤ).toNat 0 ∧
      b.mask = List.replicate (2 : ℤ).toNat 1 ∧
      b.prevKs = [] ∧
      b.nextYs = [(List.replicate (2 : ℤ).toNat P0.pad).set 0 P0.start] ∧
      ∀ r ∈ b.nextYs, r.getD 0 0 = P0.start ∧
        ∀ i, 0 < i → i < (2 : ℤ).toNat → r.getD i 0 = P0.pad) :=
  ⟨(C8_construct (-3) P0).1 (by decide), (C8_construct 2 P0).2 (by decide)⟩

/-- C5: whenever a successful `advance` emits at least one END or PAD
token, the mask after the call marks finished exactly the slots whose
token emitted in this step is END or PAD and marks every other slot
active — independently of the mask before the call (the mask is rebuilt
from the new token record alone). -/
theorem C5_mask_reset {b : Beam} {w : List (List ℤ)} {b' : Beam} {d : Bool}
    (h : b.advance w = .ok (b', d))
    (he : ∃ t ∈ b'.nextYs.getLastD [], t = b.processor.endTok ∨ t = b.processor.pad) :
    b'.mask = (b'.nextYs.getLastD []).map
      (fun t => if t = b.processor.endTok ∨ t = b.processor.pad then (⊥ : Qb) else 1) := by
  obtain ⟨sel, hsel, hb, hd⟩ := advance_ok h
  subst hb
  simp only [List.getLastD_concat] at he ⊢
  unfold newMask
  rw [if_pos ?hany]
  case hany =>
    rw [List.any_eq_true]
    obtain ⟨t, ht, hor⟩ := he
    exact ⟨t, ht, decide_eq_true hor⟩

/-- Witness for C5: the sample first step emits tokens `[3, 0]`; token 0
is PAD, so the mask is rebuilt from the new tokens. -/
theorem C5_mask_reset_witness :
    bStep1.mask = (bStep1.nextYs.getLastD []).map
      (fun t => if t = bFresh.processor.endTok ∨ t = bFresh.processor.pad then (⊥ : Qb) else 1) :=
  C5_mask_reset (show bFresh.advance wStep1 = Except.ok (bStep1, false) from rfl) (by decide)

/-- C1: after every successful `advance` the new scores are the top
`size` values of the flattened candidate table in descending order with
ties broken by the lower flattened index: the selection has `size`
entries, the scores are its values sorted descending, selection plus
remainder is a permutation of the enumerated flattened table, every
remaining value is at most every selected value, and on equal values the
selected flat index is smaller than the remaining one. -/
theorem C1_topk_scores {b : Beam} {w : List (List ℤ)} {b' : Beam} {d : Bool}
    (h : b.advance w = .ok (b', d)) :
    ∃ sel, b.advanceSel w = some sel ∧
      b'.scores = sel.map Prod.snd ∧
      b'.scores.length = b.size ∧
      b'.scores.Pairwise (fun a c => c ≤ a) ∧
      ∃ rem, (beamCandidates b w).enum.Perm (sel ++ rem) ∧
        ∀ p ∈ sel, ∀ q ∈ rem, q.2 ≤ p.2 ∧ (q.2 = p.2 → p.1 < q.1) := by
  obtain ⟨sel, hsel, hb, hd⟩ := advance_ok h
  have hsel' : topkPairs b.size (beamCandidates b w).enum = some sel := hsel
  obtain ⟨hlen, hsort, hmem, rem, hperm, hdom⟩ :=
    topkPairs_spec (pairwise_fst_lt_enum _) hsel'
  subst hb
  refine ⟨sel, hsel, rfl, ?_, ?_, rem, hperm, hdom⟩
  · simp [hlen]
  · exact List.pairwise_map.mpr hsort

/-- Witness for C1 at the sample first step. -/
theorem C1_topk_scores_witness :
    ∃ sel, bFresh.advanceSel wStep1 = some sel ∧
      bStep1.scores = sel.map Prod.snd ∧
      bStep1.scores.length = bFresh.size ∧
      bStep1.scores.Pairwise (fun a c => c ≤ a) ∧
      ∃ rem, (beamCandidates bFresh wStep1).enum.Perm (sel ++ rem) ∧
        ∀ p ∈ sel, ∀ q ∈ rem, q.2 ≤ p.2 ∧ (q.2 = p.2 → p.1 < q.1) :=
  C1_topk_scores (show bFresh.advance wStep1 = Except.ok (bStep1, false) from rfl)

/-- C6: on a freshly constructed beam (empty `prevKs`, all-active mask)
the candidate table of the first `advance` is row 0 of the probability
table alone, the new scores are the selected top `size` values of that
row, and every entry of the single appended backpointer record is slot
0. -/
theorem C6_first_step {size : ℤ} {proc : Processor} {b : Beam} {w : List (List ℤ)}
    {b' : Beam} {d : Bool}
    (hinit : Beam.init size proc = .ok b)
    (h : b.advance w = .ok (b', d)) :
    beamCandidates b w = (w.headD []).map (fun (q : ℤ) => (q : Qb)) ∧
    (∃ sel, b.advanceSel w = some sel ∧ b'.scores = sel.map Prod.snd) ∧
    b'.prevKs = [List.replicate b.size 0] := by
  obtain ⟨hsz, hbinit⟩ := init_ok hinit
  have hprev : b.prevKs = [] := by rw [hbinit]
  have hmask : b.mask = List.replicate b.size 1 := by rw [hbinit]
  have hszpos : 0 < b.size := by rw [hbinit]; simp; omega
  have hcand : beamCandidates b w = (w.headD []).map (fun (q : ℤ) => (q : Qb)) :=
    beamCandidates_first hprev hmask hszpos
  obtain ⟨sel, hsel, hb, hd⟩ := advance_ok h
  have hsel' : topkPairs b.size (beamCandidates b w).enum = some sel := hsel
  obtain ⟨hlen, -, hmem, -⟩ := topkPairs_spec (pairwise_fst_lt_enum _) hsel'
  refine ⟨hcand, ⟨sel, hsel, by rw [hb]⟩, ?_⟩
  rw [hb]
  simp only [hprev, List.nil_append, List.cons.injEq, and_true]
  unfold selPrev
  rw [List.eq_replicate_iff]
  refine ⟨by simp [hlen], ?_⟩
  intro x hx
  rw [List.mem_map] at hx
  obtain ⟨p, hp, rfl⟩ := hx
  have hpe := hmem p hp
  have hplt : p.1 < (beamCandidates b w).length := (mem_enum_spec hpe ⊥).1
  rw [hcand] at hplt
  have hnw : p.1 < numWords w := by
    unfold numWords
    simpa using hplt
  exact Nat.div_eq_of_lt hnw

/-- Witness for C6 at the sample first step. -/
theorem C6_first_step_witness :
    beamCandidates bFresh wStep1 = (wStep1.headD []).map (fun (q : ℤ) => (q : Qb)) ∧
    (∃ sel, bFresh.advanceSel wStep1 = some sel ∧ bStep1.scores = sel.map Prod.snd) ∧
    bStep1.prevKs = [List.replicate bFresh.size 0] :=
  C6_first_step (show Beam.init 2 P0 = Except.ok bFresh from rfl)
    (show bFresh.advance wStep1 = Except.ok (bStep1, false) from rfl)

theorem length_map_sum_const {α : Type _} {l : List (List α)} {v : ℕ}
    (h : ∀ r ∈ l, r.length = v) : (l.map List.length).sum = l.length * v := by
  induction l with
  | nil => simp
  | cons r rest ih =>
    simp only [List.map_cons, List.sum_cons, List.length_cons]
    rw [h r (by simp), ih fun r hr => h r (by simp [hr]), Nat.succ_mul]
    omega

theorem candidates_rows_length {b : Beam} {w : List (List ℤ)} {v : ℕ}
    (hlen : ∀ r ∈ w, r.length = v) :
    ∀ r ∈ List.zipWith (fun row s => row.map (· + s)) (maskedTable b w) b.scores,
      r.length = v := by
  intro r hr
  rw [List.mem_iff_getElem] at hr
  obtain ⟨i, hi, rfl⟩ := hr
  simp only [List.getElem_zipWith, List.length_map, maskedTable, maskRow_length]
  exact hlen _ (List.getElem_mem _)

/-- Length of the flattened candidate table on a non-first step:
`size * vocabSize`. -/
theorem candidates_length_second {b : Beam} {w : List (List ℤ)} {v : ℕ}
    (hprev : b.prevKs ≠ []) (hmask : b.mask.length = b.size)
    (hscores : b.scores.length = b.size) (hrows : w.length = b.size)
    (hlen : ∀ r ∈ w, r.length = v) :
    (beamCandidates b w).length = b.size * v := by
  unfold beamCandidates
  rw [if_pos (List.length_pos.mpr hprev)]
  rw [List.length_flatten, length_map_sum_const (candidates_rows_length hlen)]
  rw [List.length_zipWith]
  unfold maskedTable
  rw [List.length_zipWith, hmask, hscores, hrows]
  simp

/-- A successful advance requires a successful top-k selection. -/
theorem advance_ok_sel {b : Beam} {w : List (List ℤ)} {p : Beam × Bool}
    (h : b.advance w = .ok p) : (b.advanceSel w).isSome := by
  unfold Beam.advance at h
  split at h
  · exact absurd h (by simp)
  · cases hsel : b.advanceSel w with
    | none => rw [hsel] at h; exact absurd h (by simp)
    | some sel => rfl

/-- If the guard is false and the selection succeeds, advance succeeds. -/
theorem advance_ok_of_sel {b : Beam} {w : List (List ℤ)} {sel : List (ℕ × Qb)}
    (hguard : ((b.mask.any fun m => decide (m < 0))
      && decide (numWords w ≤ b.processor.pad)) = false)
    (hsel : b.advanceSel w = some sel) : ∃ p, b.advance w = .ok p := by
  unfold Beam.advance
  rw [hguard, hsel]
  exact ⟨_, rfl⟩

/-- C10: with a well-shaped table (`size` rows of `vocabSize` columns),
the first advance on a freshly constructed beam succeeds exactly when
`vocabSize` is at least `size` (the first step draws its candidates from
row 0 alone), while on any later step (`prevKs` nonempty, well-formed
lengths, `vocabSize ≥ size`, PAD in range) the top-k selection — and the
whole call — is always defined. -/
theorem C10_topk_defined (size : ℤ) (proc : Processor) (b : Beam)
    (w : List (List ℤ)) (v : ℕ)
    (hrows : w.length = b.size) (hlen : ∀ r ∈ w, r.length = v) :
    (Beam.init size proc = .ok b → ((∃ p, b.advance w = .ok p) ↔ b.size ≤ v)) ∧
    (b.prevKs ≠ [] → b.scores.length = b.size → b.mask.length = b.size →
      0 < b.size → b.size ≤ v → b.processor.pad < v →
      ∃ p, b.advance w = .ok p) := by
  constructor
  · intro hinit
    obtain ⟨hsz, hbinit⟩ := init_ok hinit
    have hprev : b.prevKs = [] := by rw [hbinit]
    have hmask : b.mask = List.replicate b.size 1 := by rw [hbinit]
    have hszpos : 0 < b.size := by rw [hbinit]; simp; omega
    obtain ⟨r, rest, rfl⟩ : ∃ r rest, w = r :: rest := by
      cases w with
      | nil => rw [← hrows] at hszpos; simp at hszpos
      | cons r rest => exact ⟨r, rest, rfl⟩
    have hcand : beamCandidates b (r :: rest) =
        ((r :: rest).headD []).map (fun (q : ℤ) => (q : Qb)) :=
      beamCandidates_first hprev hmask hszpos
    have hclen : (beamCandidates b (r :: rest)).length = v := by
      rw [hcand]
      simp only [List.headD_cons, List.length_map]
      exact hlen r (by simp)
    have hiff : (b.advanceSel (r :: rest)).isSome ↔ b.size ≤ v := by
      unfold Beam.advanceSel
      rw [topkPairs_isSome_iff, List.enum_length, hclen]
    have hguard : ((b.mask.any fun m => decide (m < 0))
        && decide (numWords (r :: rest) ≤ b.processor.pad)) = false := by
      have h1 : (b.mask.any fun m => decide (m < 0)) = false := by
        rw [hmask, List.any_eq_false]
        intro m hm
        rw [(List.mem_replicate.mp hm).2]
        simp
      rw [h1, Bool.false_and]
    constructor
    · rintro ⟨p, hp⟩
      exact hiff.mp (advance_ok_sel hp)
    · intro hv
      obtain ⟨sel, hsel⟩ := Option.isSome_iff_exists.mp (hiff.mpr hv)
      exact advance_ok_of_sel hguard hsel
  · intro hprev hscores hmask hbsz hv hpad
    obtain ⟨r, rest, rfl⟩ : ∃ r rest, w = r :: rest := by
      cases w with
      | nil => rw [← hrows] at hbsz; simp at hbsz
      | cons r rest => exact ⟨r, rest, rfl⟩
    have hnw : numWords (r :: rest) = v := by
      unfold numWords
      simp only [List.headD_cons]
      exact hlen r (by simp)
    have hguard : ((b.mask.any fun m => decide (m < 0))
        && decide (numWords (r :: rest) ≤ b.processor.pad)) = false := by
      rw [hnw, decide_eq_false (by omega : ¬ v ≤ b.processor.pad), Bool.and_false]
    have hclen : (beamCandidates b (r :: rest)).length = b.size * v :=
      candidates_length_second hprev hmask hscores hrows hlen
    have hsome : (b.advanceSel (r :: rest)).isSome := by
      unfold Beam.advanceSel
      rw [topkPairs_isSome_iff, List.enum_length, hclen]
      exact Nat.le_mul_of_pos_right _ (by omega)
    obtain ⟨sel, hsel⟩ := Option.isSome_iff_exists.mp hsome
    exact advance_ok_of_sel hguard hsel

def wStep2 : List (List ℤ) := [[5, 1, 1, 1], [2, 9, 1, 1]]

/-- Witness for C10: the sample first step succeeds (vocabSize 4 ≥ size
2) and a second step on the advanced beam also succeeds. -/
theorem C10_topk_defined_witness :
    (∃ p, bFresh.advance wStep1 = .ok p) ∧ (∃ p, bStep1.advance wStep2 = .ok p) :=
  ⟨((C10_topk_defined 2 P0 bFresh wStep1 4 rfl (by decide)).1
      (show Beam.init 2 P0 = Except.ok bFresh from rfl)).mpr (by decide),
   (C10_topk_defined 2 P0 bStep1 wStep2 4 rfl (by decide)).2
      (by decide) rfl rfl (by decide) (by decide) (by decide)⟩

/-! ## Masked rows and candidate entries of a non-first step -/

theorem maskedTable_getD {b : Beam} {w : List (List ℤ)} {i : ℕ}
    (hmask : b.mask.length = b.size) (hrows : w.length = b.size) (hi : i < b.size) :
    (maskedTable b w).getD i [] =
      maskRow b.processor.pad (b.mask.getD i 1) (w.getD i []) := by
  have hmt : i < (maskedTable b w).length := by
    unfold maskedTable
    rw [List.length_zipWith, hmask, hrows]
    simpa using hi
  rw [List.getD_eq_getElem _ _ hmt]
  unfold maskedTable
  rw [List.getElem_zipWith,
    ← List.getD_eq_getElem b.mask 1 (by omega), ← List.getD_eq_getElem w [] (by omega)]

theorem maskRow_bot_getD (pad : ℕ) (row : List ℤ) (j : ℕ) (hj : j < row.length) :
    (maskRow pad (⊥ : Qb) row).getD j ⊥ = if pad = j then (0 : Qb) else ⊥ := by
  rw [maskRow_bot]
  have hlt : j < ((List.replicate row.length (⊥ : Qb)).set pad 0).length := by
    simpa using hj
  rw [List.getD_eq_getElem _ _ hlt, List.getElem_set]
  split
  · rfl
  · exact List.getElem_replicate _ _

theorem getD_map_add {l : List Qb} {s : Qb} {j : ℕ} (hj : j < l.length) :
    (l.map (· + s)).getD j ⊥ = l.getD j ⊥ + s := by
  have hj2 : j < (l.map (· + s)).length := by simpa using hj
  rw [List.getD_eq_getElem _ _ hj2, List.getElem_map, ← List.getD_eq_getElem l ⊥ hj]

theorem getD_map_coe {row : List ℤ} {j : ℕ} (hj : j < row.length) :
    (row.map (fun (q : ℤ) => (q : Qb))).getD j ⊥ = ((row.getD j 0 : ℤ) : Qb) := by
  have hj2 : j < (row.map (fun (q : ℤ) => (q : Qb))).length := by simpa using hj
  rw [List.getD_eq_getElem _ _ hj2, List.getElem_map, ← List.getD_eq_getElem row 0 hj]

/-- Entry `(i, j)` of the flattened candidate table of a non-first step:
the masked word score plus the slot's accumulated score. -/
theorem candidates_getD_second {b : Beam} {w : List (List ℤ)} {v i j : ℕ}
    (hprev : b.prevKs ≠ []) (hmask : b.mask.length = b.size)
    (hscores : b.scores.length = b.size) (hrows : w.length = b.size)
    (hlen : ∀ r ∈ w, r.length = v) (hi : i < b.size) (hj : j < v) :
    (beamCandidates b w).getD (i * v + j) ⊥ =
      ((maskedTable b w).getD i []).getD j ⊥ + b.scores.getD i ⊥ := by
  have hmtlen : (maskedTable b w).length = b.size := by
    unfold maskedTable
    rw [List.length_zipWith, hmask, hrows]
    simp
  have hzlen : (List.zipWith (fun row s => row.map (· + s))
      (maskedTable b w) b.scores).length = b.size := by
    rw [List.length_zipWith, hmtlen, hscores]
    simp
  have hi1 : i < (maskedTable b w).length := by omega
  have hi2 : i < b.scores.length := by omega
  have hi3 : i < (List.zipWith (fun row s => row.map (· + s))
      (maskedTable b w) b.scores).length := by omega
  have hwi : (w.getD i []).length = v := by
    have hiw : i < w.length := by omega
    rw [List.getD_eq_getElem w [] hiw]
    exact hlen _ (List.getElem_mem _)
  have hrowlen : ((maskedTable b w).getD i []).length = v := by
    rw [maskedTable_getD hmask hrows hi, maskRow_length, hwi]
  unfold beamCandidates
  rw [if_pos (List.length_pos.mpr hprev)]
  rw [flatten_getD _ v (candidates_rows_length hlen) i j (by omega) hj ⊥]
  rw [List.getD_eq_getElem _ ([] : List Qb) hi3, List.getElem_zipWith,
    ← List.getD_eq_getElem (maskedTable b w) [] hi1,
    ← List.getD_eq_getElem b.scores ⊥ hi2]
  exact getD_map_add (by rw [hrowlen]; exact hj)

/-- Every row of the non-first-step candidate table holds at least one
non-bottom entry (the PAD column), provided the accumulated scores are
finite and the mask entries are the two sentinel values. -/
theorem candidates_countP_ge {b : Beam} {w : List (List ℤ)} {v : ℕ}
    (hprev : b.prevKs ≠ []) (hmask : b.mask.length = b.size)
    (hscores : b.scores.length = b.size) (hrows : w.length = b.size)
    (hlen : ∀ r ∈ w, r.length = v)
    (hsfin : ∀ s ∈ b.scores, s ≠ ⊥)
    (hmv : ∀ m ∈ b.mask, m = 1 ∨ m = ⊥)
    (hpad : b.processor.pad < v) :
    b.size ≤ (beamCandidates b w).enum.countP fun p => decide (p.2 ≠ ⊥) := by
  have h1 : (beamCandidates b w).enum.countP (fun p => decide (p.2 ≠ ⊥))
      = (beamCandidates b w).countP (fun q => decide (q ≠ ⊥)) := by
    conv_rhs => rw [← List.enum_map_snd (beamCandidates b w)]
    rw [List.countP_map]
    rfl
  rw [h1]
  unfold beamCandidates
  rw [if_pos (List.length_pos.mpr hprev)]
  have hzlen : (List.zipWith (fun row s => row.map (· + s))
      (maskedTable b w) b.scores).length = b.size := by
    unfold maskedTable
    rw [List.length_zipWith, List.length_zipWith, hmask, hscores, hrows]
    simp
  rw [← hzlen]
  apply length_le_countP_flatten
  intro r hr
  rw [List.mem_iff_getElem] at hr
  obtain ⟨i, hilt, rfl⟩ := hr
  have hi : i < b.size := by omega
  rw [List.getElem_zipWith]
  have hi1 : i < (maskedTable b w).length := by
    unfold maskedTable
    rw [List.length_zipWith, hmask, hrows]
    simpa using hi
  have hi2 : i < b.scores.length := by omega
  have hwi : (w.getD i []).length = v := by
    have hiw : i < w.length := by omega
    rw [List.getD_eq_getElem w [] hiw]
    exact hlen _ (List.getElem_mem _)
  have hrowlen : ((maskedTable b w).getD i []).length = v := by
    rw [maskedTable_getD hmask hrows hi, maskRow_length, hwi]
  have hsne : b.scores.getD i ⊥ ≠ ⊥ := by
    apply hsfin
    rw [List.getD_eq_getElem _ _ hi2]
    exact List.getElem_mem _
  have hval : ((maskedTable b w)[i].map (· + b.scores[i])).getD b.processor.pad ⊥
      = ((maskedTable b w).getD i []).getD b.processor.pad ⊥ + b.scores.getD i ⊥ := by
    rw [← List.getD_eq_getElem (maskedTable b w) [] hi1,
      ← List.getD_eq_getElem b.scores ⊥ hi2]
    exact getD_map_add (by rw [hrowlen]; exact hpad)
  have hne : ((maskedTable b w)[i].map (· + b.scores[i])).getD b.processor.pad ⊥ ≠ ⊥ := by
    rw [hval]
    rw [maskedTable_getD hmask hrows hi]
    rcases hmv (b.mask.getD i 1) (by
      rw [List.getD_eq_getElem _ _ (by omega : i < b.mask.length)]
      exact List.getElem_mem _) with hm1 | hmb
    · rw [hm1, maskRow_one, getD_map_coe (by rw [hwi]; exact hpad)]
      exact WithBot.add_ne_bot.mpr ⟨WithBot.coe_ne_bot, hsne⟩
    · rw [hmb, maskRow_bot_getD _ _ _ (by rw [hwi]; exact hpad), if_pos rfl]
      rw [zero_add]
      exact hsne
  have hplen : b.processor.pad < ((maskedTable b w)[i].map (· + b.scores[i])).length := by
    rw [List.length_map, ← List.getD_eq_getElem (maskedTable b w) [] hi1, hrowlen]
    exact hpad
  have hmem2 : ((maskedTable b w)[i].map (· + b.scores[i])).getD b.processor.pad ⊥
      ∈ (maskedTable b w)[i].map (· + b.scores[i]) := by
    rw [List.getD_eq_getElem _ _ hplen]
    exact List.getElem_mem _
  exact List.countP_pos_iff.mpr ⟨_, hmem2, decide_eq_true hne⟩

/-- C4: on a non-first advance, a slot marked finished contributes masked
word score exactly 0 at the PAD column — regardless of the value supplied
there by the probability table — so its PAD candidate is exactly its
accumulated score, and no candidate from that slot's non-PAD columns is
ever selected: every selected candidate whose backpointer is the
finished slot emits PAD. -/
theorem C4_finished_slot {b : Beam} {w : List (List ℤ)} {v i : ℕ} {b' : Beam} {d : Bool}
    (hprev : b.prevKs ≠ []) (hrows : w.length = b.size)
    (hlen : ∀ r ∈ w, r.length = v)
    (hmask : b.mask.length = b.size) (hscores : b.scores.length = b.size)
    (hsfin : ∀ s ∈ b.scores, s ≠ ⊥)
    (hmv : ∀ m ∈ b.mask, m = 1 ∨ m = ⊥)
    (hpad : b.processor.pad < v)
    (hi : i < b.size) (hfin : b.mask.getD i 1 = ⊥)
    (h : b.advance w = .ok (b', d)) :
    ((maskedTable b w).getD i []).getD b.processor.pad ⊥ = 0 ∧
    (beamCandidates b w).getD (i * v + b.processor.pad) ⊥ = b.scores.getD i ⊥ ∧
    ∀ s, s < b.size → (b'.prevKs.getLastD []).getD s 0 = i →
      (b'.nextYs.getLastD []).getD s 0 = b.processor.pad := by
  have hvpos : 0 < v := by omega
  have hwi : (w.getD i []).length = v := by
    have hiw : i < w.length := by omega
    rw [List.getD_eq_getElem w [] hiw]
    exact hlen _ (List.getElem_mem _)
  have h_a : ((maskedTable b w).getD i []).getD b.processor.pad ⊥ = 0 := by
    rw [maskedTable_getD hmask hrows hi, hfin,
      maskRow_bot_getD _ _ _ (by rw [hwi]; exact hpad), if_pos rfl]
  refine ⟨h_a, ?_, ?_⟩
  · rw [candidates_getD_second hprev hmask hscores hrows hlen hi hpad, h_a, zero_add]
  · have hnw : numWords w = v := by
      unfold numWords
      obtain ⟨r, rest, rfl⟩ : ∃ r rest, w = r :: rest := by
        cases w with
        | nil => rw [← hrows] at hi; simp at hi
        | cons r rest => exact ⟨r, rest, rfl⟩
      simp only [List.headD_cons]
      exact hlen r (by simp)
    obtain ⟨sel, hsel, hb, hd⟩ := advance_ok h
    subst hb
    have hsel' : topkPairs b.size (beamCandidates b w).enum = some sel := hsel
    have hnb := topkPairs_nobot hsel'
      (candidates_countP_ge hprev hmask hscores hrows hlen hsfin hmv hpad)
    obtain ⟨hlensel, -, hmem, -⟩ := topkPairs_spec (pairwise_fst_lt_enum _) hsel'
    intro s hs hpk
    simp only [List.getLastD_concat] at hpk ⊢
    rw [hnw] at hpk ⊢
    unfold selPrev at hpk
    unfold selToks
    have hslt : s < sel.length := by rw [hlensel]; exact hs
    have hslt2 : s < (sel.map fun p => p.1 / v).length := by simpa using hslt
    have hslt3 : s < (sel.map fun p => p.1 - p.1 / v * v).length := by simpa using hslt
    rw [List.getD_eq_getElem _ _ hslt2, List.getElem_map] at hpk
    rw [List.getD_eq_getElem _ _ hslt3, List.getElem_map]
    have hp : sel[s] ∈ sel := List.getElem_mem _
    have hpne : sel[s].2 ≠ ⊥ := hnb _ hp
    obtain ⟨hplt, hpval⟩ := mem_enum_spec (hmem _ hp) ⊥
    have hmod : sel[s].1 - sel[s].1 / v * v = sel[s].1 % v := by
      rw [Nat.mod_def, Nat.mul_comm]
    have hjlt : sel[s].1 % v < v := Nat.mod_lt _ hvpos
    have hidx : sel[s].1 = i * v + sel[s].1 % v := by
      have hdm := Nat.div_add_mod sel[s].1 v
      rw [hpk, Nat.mul_comm v i] at hdm
      exact hdm.symm
    by_cases hjp : sel[s].1 % v = b.processor.pad
    · rw [hmod, hjp]
    · exfalso
      apply hpne
      rw [hpval, hidx,
        candidates_getD_second hprev hmask hscores hrows hlen hi hjlt,
        maskedTable_getD hmask hrows hi, hfin,
        maskRow_bot_getD _ _ _ (by rw [hwi]; exact hjlt),
        if_neg (fun hh => hjp hh.symm), WithBot.bot_add]

def bFin : Beam :=
  { size := 2, done := false, processor := P0, scores := [5, 3], mask := [⊥, 1],
    prevKs := [[0, 0]], nextYs := [[1, 0], [2, 3]] }

def wFin : List (List ℤ) := [[9, 9], [1, 2]]

def bFin2 : Beam :=
  { size := 2, done := false, processor := P0, scores := [5, 5], mask := [⊥, 1],
    prevKs := [[0, 0], [0, 1]], nextYs := [[1, 0], [2, 3], [0, 1]] }

/-- Witness for C4: slot 0 of `bFin` is finished; its PAD candidate costs
nothing and the candidate selected from slot 0 (new slot 0) emits PAD
even though `wFin` offered value 9 everywhere on that row. -/
theorem C4_finished_slot_witness :
    ((maskedTable bFin wFin).getD 0 []).getD bFin.processor.pad ⊥ = 0 ∧
    (beamCandidates bFin wFin).getD (0 * 2 + bFin.processor.pad) ⊥ = bFin.scores.getD 0 ⊥ ∧
    (bFin2.nextYs.getLastD []).getD 0 0 = bFin.processor.pad := by
  have h := @C4_finished_slot bFin wFin 2 0 bFin2 false (by decide) rfl (by decide)
    rfl rfl (by decide) (by decide) (by decide) (by decide) (by decide)
    (show bFin.advance wFin = Except.ok (bFin2, false) from rfl)
  exact ⟨h.1, h.2.1, h.2.2 0 (by decide) (by decide)⟩

/-! ## The reconstruction walk -/

theorem specWalk_length (rl : List (List ℕ × List ℕ)) (k : ℕ) :
    (specWalk rl k).length = rl.length := by
  induction rl generalizing k with
  | nil => rfl
  | cons pr rest ih =>
    obtain ⟨pk, ny⟩ := pr
    simp [specWalk, ih]

theorem tIndex_nat {l : List ℕ} {k : ℕ} (hk : k < l.length) :
    tIndex l (k : ℤ) = some (l.getD k 0) := by
  unfold tIndex
  rw [if_pos (Int.natCast_nonneg k), Int.toNat_natCast]
  exact get?_eq_some_getD l k 0 hk

/-- Refinement of the backward walk: with in-range slot indices the
partial walk of the source agrees with the total walk written from the
spec words. -/
theorem hypWalk_eq_specWalk {sz : ℕ} : ∀ (rl : List (List ℕ × List ℕ)) (k : ℕ),
    (∀ p ∈ rl, p.1.length = sz ∧ p.2.length = sz ∧ ∀ x ∈ p.1, x < sz) →
    k < sz → hypWalk rl (k : ℤ) = .ok (specWalk rl k) := by
  intro rl
  induction rl with
  | nil => intro k h1 h2; rfl
  | cons pr rest ih =>
    intro k hwf hk
    obtain ⟨pk, ny⟩ := pr
    obtain ⟨hpk, hny, hbound⟩ := hwf (pk, ny) (by simp)
    unfold hypWalk specWalk
    rw [tIndex_nat (by rw [hny]; exact hk), tIndex_nat (by rw [hpk]; exact hk)]
    dsimp only
    have hk2 : pk.getD k 0 < sz := by
      apply hbound
      rw [List.getD_eq_getElem pk 0 (by rw [hpk]; exact hk)]
      exact List.getElem_mem _
    rw [ih (pk.getD k 0) (fun p hp => hwf p (by simp [hp])) hk2]
    rfl

/-- C3: for a well-formed beam that has taken `n` steps and a slot index
in `[0, size)`, `get_hyp` succeeds and returns exactly the walk written
from the spec words: the tokens `tokenHistory[step+1][currentSlot]`
collected from the last step to the first following the backpointers,
then reversed.  The result has length `n` — so the START record
`tokenHistory[0]` is never read — and for `n ≥ 1` its last element is
the token emitted at the final step at slot `k` (the terminal token of
that path). -/
theorem C3_reconstruct {b : Beam} {k : ℕ} (hwf : b.WF) (hk : k < b.size) :
    b.get_hyp (k : ℤ) = .ok (specReconstruct b k) ∧
    (specReconstruct b k).length = b.prevKs.length ∧
    (b.prevKs ≠ [] →
      (specReconstruct b k).getLast? = some ((b.nextYs.getLastD []).getD k 0)) := by
  obtain ⟨hsc, hm, hlen, hpks, hnys⟩ := hwf
  have hzlen : (b.prevKs.zip b.nextYs.tail).length = b.prevKs.length := by
    rw [List.length_zip, List.length_tail, hlen]
    simp
  have hrlwf : ∀ p ∈ (b.prevKs.zip b.nextYs.tail).reverse,
      p.1.length = b.size ∧ p.2.length = b.size ∧ ∀ x ∈ p.1, x < b.size := by
    intro p hp
    rw [List.mem_reverse] at hp
    obtain ⟨p1, p2⟩ := p
    obtain ⟨hp1, hp2⟩ := List.of_mem_zip hp
    exact ⟨(hpks _ hp1).1, hnys _ ((List.tail_sublist _).subset hp2), (hpks _ hp1).2⟩
  have hmain : hypWalk ((b.prevKs.zip b.nextYs.tail).reverse) (k : ℤ)
      = .ok (specWalk ((b.prevKs.zip b.nextYs.tail).reverse) k) :=
    hypWalk_eq_specWalk _ k hrlwf hk
  refine ⟨?_, ?_, ?_⟩
  · unfold Beam.get_hyp specReconstruct
    rw [hmain]
    rfl
  · unfold specReconstruct
    rw [List.length_reverse, specWalk_length, List.length_reverse, hzlen]
  · intro hne
    have htlen : b.nextYs.tail.length = b.prevKs.length := by
      rw [List.length_tail, hlen]
      simp
    rcases List.eq_nil_or_concat b.prevKs with hnil | ⟨ks, klast, hks⟩
    · exact absurd hnil hne
    rcases List.eq_nil_or_concat b.nextYs.tail with htl | ⟨ys, ylast, hys⟩
    · exfalso
      rw [htl, hks] at htlen
      simp at htlen
    have hkslen : ks.length = ys.length := by
      rw [hys, hks] at htlen
      simp only [List.concat_eq_append, List.length_append, List.length_cons,
        List.length_nil] at htlen
      omega
    obtain ⟨y0, t, hny0⟩ : ∃ y0 t, b.nextYs = y0 :: t := by
      cases hh : b.nextYs with
      | nil => rw [hh] at hlen; simp at hlen
      | cons a l => exact ⟨a, l, rfl⟩
    have hyl : b.nextYs.getLastD [] = ylast := by
      have ht : t = ys ++ [ylast] := by
        have := hys
        rw [hny0] at this
        simpa using this
      rw [hny0, ht, ← List.cons_append, List.getLastD_concat]
    unfold specReconstruct
    rw [hks, hys, List.concat_eq_append, List.concat_eq_append,
      List.zip_append hkslen]
    have hzone : [klast].zip [ylast] = [(klast, ylast)] := rfl
    rw [hzone, List.reverse_append, List.reverse_singleton, List.singleton_append]
    have hstep : specWalk ((klast, ylast) :: (ks.zip ys).reverse) k
        = ylast.getD k 0 :: specWalk ((ks.zip ys).reverse) (klast.getD k 0) := rfl
    rw [hstep, List.reverse_cons, List.getLast?_concat, hyl]

/-- Witness for C3 on the sample one-step beam at slot 0. -/
theorem C3_reconstruct_witness :
    bStep1.get_hyp ((0 : ℕ) : ℤ) = .ok (specReconstruct bStep1 0) ∧
    (specReconstruct bStep1 0).length = bStep1.prevKs.length ∧
    (specReconstruct bStep1 0).getLast? = some ((bStep1.nextYs.getLastD []).getD 0 0) := by
  have h := @C3_reconstruct bStep1 0 (by decide) (by decide)
  exact ⟨h.1, h.2.1, h.2.2 (by decide)⟩

/-- C9 counterexample: the source performs no bounds check in `get_hyp`.
On a freshly constructed beam (no steps taken) every slot index — the
negative `-1` and the out-of-range `5` alike — returns the empty
hypothesis successfully instead of failing. -/
theorem C9_counterexample :
    bFresh.get_hyp (-1) = .ok [] ∧ bFresh.get_hyp 5 = .ok [] := ⟨rfl, rfl⟩

/-- C9 amended: `reconstruct` performs no bounds check on `slotIndex`.
With no steps taken it returns the empty sequence for every `slotIndex`;
a negative `slotIndex` in `[-size, -1]` wraps around Python-style to
`slotIndex + size`; and only when at least one step was taken does a
`slotIndex` outside `[-size, size)` fail, with an index error raised at
the first tokenHistory read. -/
theorem C9_reconstruct_unchecked (b : Beam) (k : ℤ) (hwf : b.WF) :
    (b.prevKs = [] → b.get_hyp k = .ok []) ∧
    (-(b.size : ℤ) ≤ k → k < 0 → b.get_hyp k = b.get_hyp (k + b.size)) ∧
    (b.prevKs ≠ [] → ((b.size : ℤ) ≤ k ∨ k < -(b.size : ℤ)) →
      ∃ e, b.get_hyp k = .error e) := by
  obtain ⟨hsc, hm, hlen, hpks, hnys⟩ := hwf
  have hzlen : (b.prevKs.zip b.nextYs.tail).length = b.prevKs.length := by
    rw [List.length_zip, List.length_tail, hlen]
    simp
  refine ⟨?_, ?_, ?_⟩
  · intro hnil
    unfold Beam.get_hyp
    rw [hnil]
    rfl
  · intro hge hlt
    unfold Beam.get_hyp
    cases hrl : (b.prevKs.zip b.nextYs.tail).reverse with
    | nil => rfl
    | cons pr tl =>
      obtain ⟨pk, ny⟩ := pr
      have hmem : (pk, ny) ∈ b.prevKs.zip b.nextYs.tail := by
        rw [← List.mem_reverse, hrl]
        simp
      obtain ⟨hp1, hp2⟩ := List.of_mem_zip hmem
      have hpk : pk.length = b.size := (hpks _ hp1).1
      have hny : ny.length = b.size := hnys _ ((List.tail_sublist _).subset hp2)
      unfold hypWalk
      have ht1 : tIndex ny k = tIndex ny (k + (b.size : ℤ)) := by
        unfold tIndex
        rw [hny, if_neg (by omega), if_pos (by omega), if_pos (by omega)]
      have ht2 : tIndex pk k = tIndex pk (k + (b.size : ℤ)) := by
        unfold tIndex
        rw [hpk, if_neg (by omega), if_pos (by omega), if_pos (by omega)]
      rw [ht1, ht2]
  · intro hne hout
    cases hrl : (b.prevKs.zip b.nextYs.tail).reverse with
    | nil =>
      exfalso
      rw [List.reverse_eq_nil_iff] at hrl
      rw [hrl] at hzlen
      simp only [List.length_nil] at hzlen
      exact hne (List.length_eq_zero.mp hzlen.symm)
    | cons pr tl =>
      obtain ⟨pk, ny⟩ := pr
      have hmem : (pk, ny) ∈ b.prevKs.zip b.nextYs.tail := by
        rw [← List.mem_reverse, hrl]
        simp
      obtain ⟨hp1, hp2⟩ := List.of_mem_zip hmem
      have hny : ny.length = b.size := hnys _ ((List.tail_sublist _).subset hp2)
      unfold Beam.get_hyp
      rw [hrl]
      unfold hypWalk
      have ht1 : tIndex ny k = none := by
        unfold tIndex
        rcases hout with hbig | hsmall
        · rw [if_pos (by omega)]
          exact List.get?_eq_none.mpr (by rw [hny]; omega)
        · rw [if_neg (by omega), if_neg (by rw [hny]; omega)]
      rw [ht1]
      cases htp : tIndex pk k <;> exact ⟨_, rfl⟩

/-- Witness for C9 amended on the one-step beam: slot index 5 is out of
range and the walk fails with an index error. -/
theorem C9_reconstruct_unchecked_witness :
    ∃ e, bStep1.get_hyp 5 = .error e :=
  (C9_reconstruct_unchecked bStep1 5 (by decide)).2.2 (by decide) (by decide)

def wEnd : List (List ℤ) := [[1, 0, 8, 5], [1, 0, 8, 5]]

def bEnd : Beam :=
  { size := 2, done := false, processor := P0, scores := [8, 5], mask := [⊥, 1],
    prevKs := [[0, 0]], nextYs := [[1, 0], [2, 3]] }

/-- C7 counterexample: a freshly constructed beam of size 2 where in the
first probability table the strictly highest column of every slot's row
is END (column 2), yet the first `advance` returns done = false: slot 0
emits END but slot 1 selects the next-best column 3 and stays active, so
the search does not complete after one step. -/
theorem C7_counterexample :
    Beam.init 2 P0 = .ok bFresh ∧
    (∀ r ∈ wEnd, ∀ j, j < 4 → j ≠ P0.endTok → r.getD j 0 < r.getD P0.endTok 0) ∧
    bFresh.advance wEnd = .ok (bEnd, false) :=
  ⟨rfl, by decide, rfl⟩

/-- C7 amended: after the first `advance` on a freshly constructed beam
the call returns done = true exactly when every token emitted in this
step is END or PAD.  In particular a beam of size 1 whose row-0 top
column is END is done after one step, but for size ≥ 2 the non-END
runner-up columns keep their slots active (see the counterexample). -/
theorem C7_first_step_done {size : ℤ} {proc : Processor} {b : Beam}
    {w : List (List ℤ)} {b' : Beam} {d : Bool}
    (hinit : Beam.init size proc = .ok b)
    (h : b.advance w = .ok (b', d)) :
    d = true ↔ ∀ t ∈ b'.nextYs.getLastD [], t = proc.endTok ∨ t = proc.pad := by
  obtain ⟨hsz, hbinit⟩ := init_ok hinit
  obtain ⟨sel, hsel, hb, hd⟩ := advance_ok h
  have hproc : b.processor = proc := by rw [hbinit]
  have hdone : b.done = false := by rw [hbinit]
  have hmask : b.mask = List.replicate b.size 1 := by rw [hbinit]
  have hszpos : 0 < b.size := by rw [hbinit]; simp; omega
  have hsel' : topkPairs b.size (beamCandidates b w).enum = some sel := hsel
  obtain ⟨hlensel, -, -, -⟩ := topkPairs_spec (pairwise_fst_lt_enum _) hsel'
  have htlen : (selToks (numWords w) sel).length = b.size := by
    unfold selToks
    rw [List.length_map, hlensel]
  subst hb
  simp only [List.getLastD_concat]
  rw [hproc] at hd
  by_cases hany : ((selToks (numWords w) sel).any
      fun t => decide (t = proc.endTok ∨ t = proc.pad)) = true
  · unfold newMask at hd
    rw [if_pos hany] at hd
    by_cases hall : ∀ t ∈ selToks (numWords w) sel, t = proc.endTok ∨ t = proc.pad
    · have hnone : (((selToks (numWords w) sel).map fun t =>
          if t = proc.endTok ∨ t = proc.pad then (⊥ : Qb) else 1).any
          fun m => decide (m = 1)) = false := by
        rw [List.any_eq_false]
        intro x hx
        rw [List.mem_map] at hx
        obtain ⟨t, ht, rfl⟩ := hx
        rw [if_pos (hall t ht)]
        simp
      rw [hnone] at hd
      simp only [Bool.false_eq_true, if_false] at hd
      subst hd
      exact ⟨fun _ => hall, fun _ => rfl⟩
    · push_neg at hall
      obtain ⟨t0, ht0, hno1, hno2⟩ := hall
      have hsome : (((selToks (numWords w) sel).map fun t =>
          if t = proc.endTok ∨ t = proc.pad then (⊥ : Qb) else 1).any
          fun m => decide (m = 1)) = true := by
        rw [List.any_eq_true]
        refine ⟨1, ?_, by simp⟩
        rw [List.mem_map]
        refine ⟨t0, ht0, ?_⟩
        rw [if_neg (by tauto)]
      rw [hsome] at hd
      simp only [if_true] at hd
      rw [hdone] at hd
      subst hd
      constructor
      · intro hfalse
        exact absurd hfalse (by simp)
      · intro hall2
        exact absurd (hall2 t0 ht0) (by tauto)
  · unfold newMask at hd
    rw [if_neg hany] at hd
    have hsome : (b.mask.any fun m => decide (m = 1)) = true := by
      rw [hmask, List.any_eq_true]
      exact ⟨1, List.mem_replicate.mpr ⟨by omega, rfl⟩, by simp⟩
    rw [hsome] at hd
    simp only [if_true] at hd
    rw [hdone] at hd
    subst hd
    have hex : ∃ t0, t0 ∈ selToks (numWords w) sel := by
      cases hts : selToks (numWords w) sel with
      | nil => rw [hts] at htlen; simp at htlen; omega
      | cons a l => exact ⟨a, by simp [hts]⟩
    obtain ⟨t0, ht0⟩ := hex
    constructor
    · intro hfalse
      exact absurd hfalse (by simp)
    · intro hall2
      exact absurd (List.any_eq_true.mpr ⟨t0, ht0, decide_eq_true (hall2 t0 ht0)⟩) hany

def wOne : List (List ℤ) := [[1, 0, 9, 2]]

def bOne : Beam :=
  { size := 1, done := false, processor := P0, scores := [0], mask := [1],
    prevKs := [], nextYs := [[1]] }

def bOne2 : Beam :=
  { size := 1, done := true, processor := P0, scores := [9], mask := [⊥],
    prevKs := [[0]], nextYs := [[1], [2]] }

/-- Witness for C7 amended: a size-1 beam whose row-0 top column is END
is done after exactly one step, and the emitted token is END. -/
theorem C7_first_step_done_witness :
    true = true ↔ ∀ t ∈ bOne2.nextYs.getLastD [], t = P0.endTok ∨ t = P0.pad :=
  C7_first_step_done (show Beam.init 1 P0 = Except.ok bOne from rfl)
    (show bOne.advance wOne = Except.ok (bOne2, true) from rfl)

end BeamSearch
